import Mathlib

/-!
Shallow embedding of the `q3-client` repository
(src/q3-client/src/q3_client.rs): a UDP "getstatus" query client for the
Quake 3 out-of-band status protocol.  The transport (UDP socket I/O,
lines 50-82) is not modelled; the embedding covers the request payload
construction (lines 66-68), the response decoding part of `get_status`
(lines 84-111), `parse_player_name` (lines 114-116) and
`string_utils::sanitize_string` (lines 121-142).

Rust panics (out-of-bounds indexing, `Option::unwrap` on `None`) are
modelled as `none`: a `none` result of a decoding function means the Rust
program aborts with a panic at that point; `some v` means it returns `v`
normally.
-/

namespace Q3

/-- Rust `str::split(sep)` for a one-character separator: the pieces of the
string between occurrences of `sep`, in order, including empty pieces (a
string with `n` occurrences of `sep` yields `n + 1` pieces; the empty
string yields `[[]]`). -/
def splitChars (sep : Char) : List Char → List (List Char)
  | [] => [[]]
  | c :: rest =>
    match splitChars sep rest with
    | [] => [[]]
    | piece :: pieces =>
      if c = sep then [] :: piece :: pieces
      else (c :: piece) :: pieces

/-- Rust `str::split(sep).collect::<Vec<&str>>()` at the `String` level. -/
def rustSplit (sep : Char) (s : String) : List String :=
  (splitChars sep s.toList).map String.mk

/-- Rust `str::len()`: the length of the string in UTF-8 bytes (not in
characters). -/
def byteLen (s : List Char) : Nat := (s.map Char.utf8Size).sum

/-- The `while i < orig_string.len()` loop of `sanitize_string`
(q3_client.rs lines 124-139).  `s` is the character list of `orig_string`,
`i` the loop index; `s[i]?` models `orig_string.chars().nth(i)` and a
`none` lookup under `.unwrap()` (line 126) models the panic.  The loop
bound is the BYTE length (`orig_string.len()`), exactly as in the source.
The extra fuel argument only bounds the recursion depth: since `i` grows
by at least 1 per iteration, a fuel of `byteLen s` iterations is never
exhausted when starting from `i = 0`, and on exhaustion the loop exit
value (the empty remainder) is returned. -/
def sanitizeLoop (s : List Char) : Nat → Nat → Option (List Char)
  | _, 0 => some []
  | i, fuel + 1 =>
    if i < byteLen s then
      match s[i]? with
      | none => none
      | some c =>
        if c = '^' then
          if s[i + 1]? = some '^' then
            (sanitizeLoop s (i + 1) fuel).map (fun r => '^' :: r)
          else
            sanitizeLoop s (i + 2) fuel
        else
          (sanitizeLoop s (i + 1) fuel).map (fun r => c :: r)
    else some []

/-- Models `string_utils::sanitize_string` (q3_client.rs lines 121-142): removes
color codes from a string.  `none` models a panic inside the loop. -/
def sanitize_string (s : String) : Option String :=
  (sanitizeLoop s.toList 0 (byteLen s.toList)).map String.mk

/-- The `Player` struct (q3_client.rs lines 17-21). -/
structure Player where
  name : String
  clean_name : String
deriving DecidableEq

/-- The `ServerStatus` struct (q3_client.rs lines 23-27).  The Rust
`HashMap<String, String>` field `keys` is modelled as an association list
without duplicate keys, in insertion order. -/
structure ServerStatus where
  keys : List (String × String)
  players : List Player
deriving DecidableEq

/-- Models `HashMap::insert`: overwrite any existing binding of `k`, add `(k, v)`. -/
def mapInsert (m : List (String × String)) (k v : String) :
    List (String × String) :=
  m.filter (fun p => p.1 != k) ++ [(k, v)]

/-- Models `HashMap::get`: the value bound to `k`, if any. -/
def mapFind (m : List (String × String)) (k : String) : Option String :=
  (m.find? (fun p => p.1 == k)).map (fun p => p.2)

/-- The `for val in &keys[1..]` loop of `get_status` (q3_client.rs lines
88-96): walk the remaining tokens, treating a token as a value for the
pending `current_key` when one is pending (inserting the pair), and as the
next key otherwise. -/
def parseKeysLoop : List String → String → List (String × String) →
    List (String × String)
  | [], _, m => m
  | val :: rest, current, m =>
    if current = "" then parseKeysLoop rest val m
    else parseKeysLoop rest "" (mapInsert m current val)

/-- Lines 86-96 of `get_status`: split the key/value line on `\`, skip the
leading empty token, then run the pairing loop.  Note the source
initialises `current_key` to `keys[1]` (the SECOND remaining token) and
also starts the loop at `&keys[1..]`; `keys[1]` panics (`none`) when fewer
than two tokens remain. -/
def parseKeys (kvLine : String) : Option (List (String × String)) :=
  let tokens := (rustSplit '\\' kvLine).drop 1
  match tokens[1]? with
  | none => none
  | some k1 => some (parseKeysLoop (tokens.drop 1) k1 [])

/-- Models `Q3Client::parse_player_name` (q3_client.rs lines 114-116): split the
player line on `"` and take element 1, i.e. the text between the first and
second double quote; fewer than two quotes make the index panic (`none`). -/
def parse_player_name (line : String) : Option String :=
  (rustSplit '"' line)[1]?

/-- Rust `iterator.map(f).collect()` where each `f` application can panic:
apply `f` left to right, aborting (`none`) at the first panic. -/
def collectMap (f : α → Option β) : List α → Option (List β)
  | [] => some []
  | x :: xs =>
    match f x with
    | none => none
    | some y => (collectMap f xs).map (fun ys => y :: ys)

/-- The response-decoding part of `get_status` (q3_client.rs lines
84-111), starting from the reply text (the source obtains it by a lossy
UTF-8 decode of the received bytes, line 82).  Split into rows on `\n`;
`rows[1]` is the key/value line (panic when absent); player rows are the
slice `rows[2..rows.len() - 1]`, which panics when `rows.len() < 3`; each
player row yields a `Player` whose `clean_name` is the sanitized name. -/
def decodeStatus (response : String) : Option ServerStatus :=
  let rows := rustSplit '\n' response
  match rows[1]? with
  | none => none
  | some kvLine =>
    match parseKeys kvLine with
    | none => none
    | some keys =>
      if 2 ≤ rows.length - 1 then
        match collectMap parse_player_name
            ((rows.drop 2).take (rows.length - 1 - 2)) with
        | none => none
        | some names =>
          match collectMap
              (fun n => (sanitize_string n).map (fun c => Player.mk n c))
              names with
          | none => none
          | some players => some ⟨keys, players⟩
      else none

/-- The request payload built by `get_status` (q3_client.rs lines 66-68):
the four raw bytes `0xff 0xff 0xff 0xff` concatenated with the UTF-8
bytes of `"getstatus"` (all ASCII, so one byte per character). -/
def requestPayload : List Nat :=
  [0xff, 0xff, 0xff, 0xff] ++ "getstatus".toList.map Char.toNat

end Q3

namespace Q3

/-! General lemmas about the sanitizer loop. -/

/-- Every character occupies at least one UTF-8 byte, so the byte length
dominates the character count. -/
theorem length_le_byteLen (s : List Char) : s.length ≤ byteLen s := by
  induction s with
  | nil => simp [byteLen]
  | cons c cs ih =>
    have h1 : 0 < c.utf8Size := Char.utf8Size_pos c
    have h2 : byteLen (c :: cs) = c.utf8Size + byteLen cs := by
      simp [byteLen]
    simp only [List.length_cons]
    omega

theorem byteLen_append (s t : List Char) :
    byteLen (s ++ t) = byteLen s + byteLen t := by
  simp [byteLen]

/-- Once the index has reached the byte length, the loop exits immediately
with the empty remainder, whatever the fuel. -/
theorem sanitizeLoop_exit (s : List Char) (f i : Nat) (h : byteLen s ≤ i) :
    sanitizeLoop s i f = some [] := by
  cases f with
  | zero => rfl
  | succ f => simp [sanitizeLoop, Nat.not_lt.mpr h]

/-- Fuel irrelevance: any two fuels covering the remaining iterations give
the same result. -/
theorem sanitizeLoop_fuel (s : List Char) :
    ∀ f g i, byteLen s - i ≤ f → byteLen s - i ≤ g →
      sanitizeLoop s i f = sanitizeLoop s i g := by
  intro f
  induction f with
  | zero =>
    intro g i hf hg
    have h : byteLen s ≤ i := by omega
    rw [sanitizeLoop_exit s 0 i h, sanitizeLoop_exit s g i h]
  | succ f ih =>
    intro g i hf hg
    by_cases h : i < byteLen s
    · obtain ⟨g', rfl⟩ : ∃ g', g = g' + 1 := ⟨g - 1, by omega⟩
      simp only [sanitizeLoop, if_pos h]
      cases hc : s[i]? with
      | none => rfl
      | some c =>
        by_cases hcaret : c = '^'
        · by_cases hnext : s[i + 1]? = some '^'
          · simp only [hcaret, if_pos rfl, if_pos hnext]
            rw [ih g' (i + 1) (by omega) (by omega)]
          · simp only [hcaret, if_pos rfl, if_neg hnext]
            exact ih g' (i + 2) (by omega) (by omega)
        · simp only [if_neg hcaret]
          rw [ih g' (i + 1) (by omega) (by omega)]
    · rw [sanitizeLoop_exit s (f + 1) i (by omega),
        sanitizeLoop_exit s g i (by omega)]

/-- On a string whose characters are all single-byte (so that the byte
bound agrees with the character count), the loop never hits the panicking
`none` lookup. -/
theorem sanitizeLoop_isSome (s : List Char) (h : byteLen s = s.length) :
    ∀ f i, (sanitizeLoop s i f).isSome := by
  intro f
  induction f with
  | zero => intro i; rfl
  | succ f ih =>
    intro i
    by_cases hi : i < byteLen s
    · have hlen : i < s.length := by omega
      simp only [sanitizeLoop, if_pos hi, List.getElem?_eq_getElem hlen]
      by_cases hcaret : s[i] = '^'
      · rw [if_pos hcaret]
        by_cases hnext : s[i + 1]? = some '^'
        · rw [if_pos hnext, Option.isSome_map']
          exact ih (i + 1)
        · rw [if_neg hnext]
          exact ih (i + 2)
      · rw [if_neg hcaret, Option.isSome_map']
        exact ih (i + 1)
    · rw [sanitizeLoop_exit s (f + 1) i (by omega)]; rfl

/-- Each character the loop emits is accounted to a distinct input index,
so the output is no longer than the unscanned part of the input. -/
theorem sanitizeLoop_length (s : List Char) :
    ∀ f i r, sanitizeLoop s i f = some r → r.length ≤ s.length - i := by
  intro f
  induction f with
  | zero =>
    intro i r hr
    cases hr
    simp
  | succ f ih =>
    intro i r hr
    by_cases hi : i < byteLen s
    · simp only [sanitizeLoop, if_pos hi] at hr
      cases hc : s[i]? with
      | none => rw [hc] at hr; cases hr
      | some c =>
        have hlen : i < s.length := (List.getElem?_eq_some_iff.mp hc).1
        rw [hc] at hr
        by_cases hcaret : c = '^'
        · by_cases hnext : s[i + 1]? = some '^'
          · simp only [hcaret, if_pos rfl, if_pos hnext] at hr
            obtain ⟨r', hr', rfl⟩ := Option.map_eq_some'.mp hr
            have := ih (i + 1) r' hr'
            simp only [List.length_cons]
            omega
          · simp only [hcaret, if_pos rfl, if_neg hnext] at hr
            have := ih (i + 2) r hr
            omega
        · simp only [if_neg hcaret] at hr
          obtain ⟨r', hr', rfl⟩ := Option.map_eq_some'.mp hr
          have := ih (i + 1) r' hr'
          simp only [List.length_cons]
          omega
    · rw [sanitizeLoop_exit s (f + 1) i (by omega)] at hr
      cases hr
      simp

/-- On a single-byte-character string without carets, the loop copies the
unscanned suffix verbatim. -/
theorem sanitizeLoop_no_caret (s : List Char) (hA : byteLen s = s.length)
    (hC : '^' ∉ s) :
    ∀ f i, s.length - i ≤ f → sanitizeLoop s i f = some (s.drop i) := by
  intro f
  induction f with
  | zero =>
    intro i hfi
    rw [List.drop_eq_nil_of_le (by omega)]
    rfl
  | succ f ih =>
    intro i hfi
    by_cases hi : i < byteLen s
    · have hlen : i < s.length := by omega
      simp only [sanitizeLoop, if_pos hi, List.getElem?_eq_getElem hlen]
      have hcaret : s[i] ≠ '^' := by
        intro heq
        exact hC (heq ▸ List.getElem_mem hlen)
      simp only [if_neg hcaret]
      rw [ih (i + 1) (by omega), Option.map_some']
      rw [List.drop_eq_getElem_cons hlen]
    · rw [sanitizeLoop_exit s (f + 1) i (by omega),
        List.drop_eq_nil_of_le (by omega)]

/-- Scanning past a fully-scanned single-byte ASCII-width leading block:
the loop on `u ++ t` at index `u.length + i` behaves like the loop on `t`
at index `i` (with the same fuel). -/
theorem sanitizeLoop_shift (u t : List Char) (hu : byteLen u = u.length) :
    ∀ f i, sanitizeLoop (u ++ t) (u.length + i) f = sanitizeLoop t i f := by
  intro f
  induction f with
  | zero => intro i; rfl
  | succ f ih =>
    intro i
    have hb : byteLen (u ++ t) = u.length + byteLen t := by
      rw [byteLen_append, hu]
    have hget : ∀ j, (u ++ t)[u.length + j]? = t[j]? := by
      intro j
      rw [List.getElem?_append_right (by omega)]
      congr 1
      omega
    by_cases hi : i < byteLen t
    · have h1 : u.length + i < byteLen (u ++ t) := by omega
      simp only [sanitizeLoop, if_pos h1, if_pos hi, hget i]
      cases hc : t[i]? with
      | none => rfl
      | some c =>
        by_cases hcaret : c = '^'
        · simp only [if_pos hcaret]
          rw [Nat.add_assoc u.length i 1, hget (i + 1)]
          by_cases hnext : t[i + 1]? = some '^'
          · simp only [if_pos hnext]
            rw [ih (i + 1)]
          · simp only [if_neg hnext]
            rw [Nat.add_assoc u.length i 2]
            exact ih (i + 2)
        · simp only [if_neg hcaret]
          rw [Nat.add_assoc u.length i 1, ih (i + 1)]
    · rw [sanitizeLoop_exit (u ++ t) (f + 1) (u.length + i) (by omega),
        sanitizeLoop_exit t (f + 1) i (by omega)]

theorem toList_mk (l : List Char) : (String.mk l).toList = l := rfl

theorem string_mk_toList (s : String) : String.mk s.toList = s := rfl

theorem byteLen_cons (c : Char) (s : List Char) :
    byteLen (c :: s) = c.utf8Size + byteLen s := by
  simp [byteLen]

/-- One unfolding of the loop in the escaped-caret case (`^^` seen): a
literal caret is emitted and the index advances by ONE (past the first
caret only). -/
theorem sanitizeLoop_step_pair (s : List Char) (i f : Nat)
    (hi : i < byteLen s) (hc : s[i]? = some '^') (hn : s[i + 1]? = some '^') :
    sanitizeLoop s i (f + 1) = (sanitizeLoop s (i + 1) f).map (fun r => '^' :: r) := by
  simp only [sanitizeLoop, if_pos hi, hc]
  rw [if_pos trivial, if_pos hn]

/-- One unfolding of the loop in the escape case (`^` followed by a
non-caret): both characters are consumed and nothing is emitted. -/
theorem sanitizeLoop_step_skip (s : List Char) (i f : Nat)
    (hi : i < byteLen s) (hc : s[i]? = some '^') (hn : s[i + 1]? ≠ some '^') :
    sanitizeLoop s i (f + 1) = sanitizeLoop s (i + 2) f := by
  simp only [sanitizeLoop, if_pos hi, hc]
  rw [if_pos trivial, if_neg hn]

/-- The loop on `t ++ ['^']` agrees with the loop on `t` when `t` is made
of single-byte characters and does not itself end in a caret: the added
trailing caret is consumed with nothing emitted. -/
theorem sanitizeLoop_trailing (t : List Char) (hbt : byteLen t = t.length)
    (h2 : t.getLast? ≠ some '^') :
    ∀ f i, sanitizeLoop (t ++ ['^']) i f = sanitizeLoop t i f := by
  have hb : byteLen (t ++ ['^']) = t.length + 1 := by
    have h1 : byteLen ['^'] = 1 := by decide
    rw [byteLen_append, hbt, h1]
  intro f
  induction f with
  | zero => intro i; rfl
  | succ f ih =>
    intro i
    by_cases hi : i < t.length
    · have hget : (t ++ ['^'])[i]? = t[i]? := List.getElem?_append_left hi
      simp only [sanitizeLoop, if_pos (show i < byteLen (t ++ ['^']) by omega),
        if_pos (show i < byteLen t by omega), hget, List.getElem?_eq_getElem hi]
      by_cases hcaret : t[i] = '^'
      · have hi1 : i + 1 < t.length := by
          rcases Nat.lt_or_ge (i + 1) t.length with h | h
          · exact h
          · exfalso
            have hl : t.getLast? = t[i]? := by
              rw [List.getLast?_eq_getElem?]
              congr 1
              omega
            rw [hl, List.getElem?_eq_getElem hi, hcaret] at h2
            exact h2 rfl
        have hget1 : (t ++ ['^'])[i + 1]? = t[i + 1]? :=
          List.getElem?_append_left hi1
        simp only [if_pos hcaret, hget1]
        by_cases hnext : t[i + 1]? = some '^'
        · simp only [if_pos hnext]
          rw [ih (i + 1)]
        · simp only [if_neg hnext]
          exact ih (i + 2)
      · simp only [if_neg hcaret]
        rw [ih (i + 1)]
    · by_cases hie : i = t.length
      · subst hie
        rw [sanitizeLoop_exit t (f + 1) t.length (by omega)]
        have hgetn : (t ++ ['^'])[t.length]? = some '^' := by
          rw [List.getElem?_append_right (Nat.le_refl _)]
          simp
        have hgetn1 : (t ++ ['^'])[t.length + 1]? = none := by
          apply List.getElem?_eq_none
          simp
        simp only [sanitizeLoop,
          if_pos (show t.length < byteLen (t ++ ['^']) by omega), hgetn]
        rw [if_pos trivial, hgetn1,
          if_neg (show ¬(none : Option Char) = some '^' by simp)]
        exact sanitizeLoop_exit (t ++ ['^']) f (t.length + 2) (by omega)
      · rw [sanitizeLoop_exit (t ++ ['^']) (f + 1) i (by omega),
          sanitizeLoop_exit t (f + 1) i (by omega)]

/-- Every element of a successful `collectMap` comes from applying `f` to
some element of the input list. -/
theorem collectMap_mem {α β : Type} (f : α → Option β) :
    ∀ (l : List α) (ys : List β), collectMap f l = some ys →
      ∀ y ∈ ys, ∃ x, x ∈ l ∧ f x = some y := by
  intro l
  induction l with
  | nil =>
    intro ys h y hy
    simp only [collectMap, Option.some.injEq] at h
    subst h
    cases hy
  | cons x xs ih =>
    intro ys h y hy
    simp only [collectMap] at h
    cases hfx : f x with
    | none => rw [hfx] at h; cases h
    | some z =>
      rw [hfx] at h
      obtain ⟨zs, hzs, rfl⟩ := Option.map_eq_some'.mp h
      rcases List.mem_cons.mp hy with rfl | hmem
      · exact ⟨x, List.mem_cons_self x xs, hfx⟩
      · obtain ⟨x', hx', hfx'⟩ := ih zs hzs y hmem
        exact ⟨x', List.mem_cons_of_mem x hx', hfx'⟩

/-- A successfully decoded status draws its player list from the
name-sanitizing `collectMap` stage of `get_status`. -/
theorem decodeStatus_players (resp : String) (st : ServerStatus)
    (h : decodeStatus resp = some st) :
    ∃ names, collectMap
      (fun n => (sanitize_string n).map (fun c => Player.mk n c)) names =
        some st.players := by
  simp only [decodeStatus] at h
  split at h
  · cases h
  · split at h
    · cases h
    · split at h
      · split at h
        · cases h
        · split at h
          · cases h
          · rename_i players hplayers
            cases h
            exact ⟨_, hplayers⟩
      · cases h

/-! The claim theorems. -/

/-- C1 (counterexample): on the exact reply buffer of the claim the decoder
does not produce the claimed keys and players — it produces nothing at
all: the buffer ends in a doubled newline, so the player-row slice keeps
an empty line on which `parse_player_name` indexes out of bounds, i.e.
`get_status` panics (modelled as `none`).  In particular the result is not
a status with keys `{sv_hostname ↦ MyServer, g_gametype ↦ 0}` and players
`[(^1Alice, Alice), (^2Bob^^Cool, Bob^Cool)]` (in either key order). -/
theorem decode_example_buffer_counterexample :
    decodeStatus "statusResponse\n\\sv_hostname\\MyServer\\g_gametype\\0\n\"0\" \"^1Alice\"\n\"5\" \"^2Bob^^Cool\"\n\n" = none ∧
    (none : Option ServerStatus) ≠
      some ⟨[("sv_hostname", "MyServer"), ("g_gametype", "0")],
            [Player.mk "^1Alice" "Alice", Player.mk "^2Bob^^Cool" "Bob^Cool"]⟩ ∧
    (none : Option ServerStatus) ≠
      some ⟨[("g_gametype", "0"), ("sv_hostname", "MyServer")],
            [Player.mk "^1Alice" "Alice", Player.mk "^2Bob^^Cool" "Bob^Cool"]⟩ :=
  ⟨by decide, by decide, by decide⟩

/-- C1 (amended): on the exact reply buffer of the claim `get_status`
panics (the doubled trailing newline leaves an empty player line whose
quote-split has no element 1); on the same buffer with a single trailing
newline the decoder yields keys `{"MyServer" ↦ "MyServer", "g_gametype" ↦
"0"}` — the first key/value pair is lost because the pairing loop starts
at the first VALUE token and pairs it with itself — and players
`[(name "0", cleanName "0"), (name "5", cleanName "5")]` — the extracted
name is the text between the first two quotes, which in this buffer is
the quoted score field. -/
theorem decode_example_buffer_actual :
    decodeStatus "statusResponse\n\\sv_hostname\\MyServer\\g_gametype\\0\n\"0\" \"^1Alice\"\n\"5\" \"^2Bob^^Cool\"\n\n" = none ∧
    decodeStatus "statusResponse\n\\sv_hostname\\MyServer\\g_gametype\\0\n\"0\" \"^1Alice\"\n\"5\" \"^2Bob^^Cool\"\n" =
      some ⟨[("MyServer", "MyServer"), ("g_gametype", "0")],
            [Player.mk "0" "0", Player.mk "5" "5"]⟩ :=
  ⟨by decide, by decide⟩

/-- C2: the code does NOT return a decode-error value on malformed
responses — it panics.  A one-line reply panics on the `rows[1]` index
(modelled `none`), and a reply whose player line has no two quotes panics
on element 1 of the quote split (modelled `none`).  The decoding part of
`get_status` has no error return at all: every failure after a successful
receive is a panic. -/
theorem get_status_malformed_panics :
    decodeStatus "statusResponse" = none ∧
    decodeStatus "statusResponse\n\\a\\b\nnoquotes\n" = none :=
  ⟨by decide, by decide⟩

/-- C3: `sanitize_string` does NOT scan purely by code point: its loop
bound is the BYTE length while its lookups are by character index, so on
the one-character, two-byte input `"é"` the loop runs past the last
character and panics on `unwrap` of `None` (modelled `none`). -/
theorem sanitize_nonascii_panics : sanitize_string "é" = none := by decide

/-- C4 (counterexample): `"ü"` contains no caret, yet `sanitize_string`
does not return it unchanged — it panics (byte length 2 versus one
character), refuting `sanitize(s) = s` for all caret-free strings. -/
theorem sanitize_no_caret_counterexample :
    '^' ∉ "ü".toList ∧ sanitize_string "ü" = none ∧
      sanitize_string "ü" ≠ some "ü" :=
  ⟨by decide, by decide, by decide⟩

/-- C4 (amended): for every string of single-byte characters (byte length
equal to character count) that contains no caret, `sanitize_string`
returns the string unchanged. -/
theorem sanitize_no_caret_id (s : String)
    (hA : byteLen s.toList = s.toList.length) (hC : '^' ∉ s.toList) :
    sanitize_string s = some s := by
  unfold sanitize_string
  rw [sanitizeLoop_no_caret s.toList hA hC (byteLen s.toList) 0 (by omega),
    List.drop_zero, Option.map_some', string_mk_toList]

/-- C4 (witness): the amended theorem applied at `"abc"`. -/
theorem sanitize_no_caret_id_witness :
    byteLen "abc".toList = "abc".toList.length ∧ '^' ∉ "abc".toList ∧
      sanitize_string "abc" = some "abc" :=
  ⟨by decide, by decide, sanitize_no_caret_id "abc" (by decide) (by decide)⟩

/-- C5 (counterexample): after the `^^` pair of `"^^7"` the `7` is NOT
copied literally (which would give `"^7"`): the scan advances past only
the first caret, so the second caret plus the `7` form a fresh escape and
are removed, giving `"^"`. -/
theorem sanitize_caret_pair_counterexample :
    sanitize_string "^^7" = some "^" ∧ ("^" : String) ≠ "^7" :=
  ⟨by decide, by decide⟩

/-- C5 (amended): when the character following a caret is itself a caret,
a single literal caret is emitted but the scan advances past only the
FIRST caret; the second caret is re-examined, and when the character `c`
after the pair is not a caret, the second caret together with `c` forms an
escape that is removed, after which scanning continues at the remainder:
for single-byte characters, `sanitize('^' :: '^' :: c :: t) = '^' ::
sanitize(t)`. -/
theorem sanitize_caret_pair_rescans (c : Char) (t : List Char)
    (h1 : byteLen ('^' :: '^' :: c :: t) = t.length + 3) (h2 : c ≠ '^') :
    sanitize_string (String.mk ('^' :: '^' :: c :: t)) =
      (sanitize_string (String.mk t)).map (fun r => "^" ++ r) := by
  have hsz1 : ('^').utf8Size = 1 := by decide
  have e1 : byteLen ('^' :: '^' :: c :: t) =
      ('^').utf8Size + (('^').utf8Size + (c.utf8Size + byteLen t)) := by
    rw [byteLen_cons, byteLen_cons, byteLen_cons]
  rw [hsz1] at e1
  have hpos : 0 < c.utf8Size := Char.utf8Size_pos c
  have hlt : t.length ≤ byteLen t := length_le_byteLen t
  have hszc : c.utf8Size = 1 := by omega
  have hbt : byteLen t = t.length := by omega
  have hu : byteLen ['^', '^', c] = (['^', '^', c] : List Char).length := by
    rw [byteLen_cons, byteLen_cons, byteLen_cons, hsz1, hszc]
    rfl
  unfold sanitize_string
  rw [toList_mk, toList_mk, h1]
  rw [show t.length + 3 = t.length + 2 + 1 from rfl]
  have hc2 : ('^' :: '^' :: c :: t)[2]? = some c := by simp
  rw [sanitizeLoop_step_pair ('^' :: '^' :: c :: t) 0 (t.length + 2)
    (by omega) (by simp) (by simp)]
  rw [show (0 : Nat) + 1 = 1 from rfl]
  rw [show t.length + 2 = t.length + 1 + 1 from rfl]
  rw [sanitizeLoop_step_skip ('^' :: '^' :: c :: t) 1 (t.length + 1)
    (by omega) (by simp)
    (by
      intro he
      rw [hc2] at he
      exact h2 (Option.some.inj he))]
  rw [show (1 : Nat) + 2 = 3 from rfl]
  rw [show ('^' :: '^' :: c :: t) = ['^', '^', c] ++ t from rfl]
  rw [show (3 : Nat) = (['^', '^', c] : List Char).length + 0 from rfl]
  rw [sanitizeLoop_shift ['^', '^', c] t hu (t.length + 1) 0]
  rw [sanitizeLoop_fuel t (t.length + 1) (byteLen t) 0 (by omega) (by omega)]
  cases sanitizeLoop t 0 (byteLen t) with
  | none => rfl
  | some r => rfl

/-- C5 (witness): the amended theorem applied at `c = '7'`,
`t = "Name".toList`, so `sanitize("^^7Name") = "^" ++ sanitize("Name")`. -/
theorem sanitize_caret_pair_rescans_witness :
    byteLen ('^' :: '^' :: '7' :: "Name".toList) = "Name".toList.length + 3 ∧
    ('7' : Char) ≠ '^' ∧
    sanitize_string (String.mk ('^' :: '^' :: '7' :: "Name".toList)) =
      (sanitize_string (String.mk "Name".toList)).map (fun r => "^" ++ r) :=
  ⟨by decide, by decide,
    sanitize_caret_pair_rescans '7' "Name".toList (by decide) (by decide)⟩

/-- C6 (counterexample): a successfully decoded `ServerStatus` can contain
a player whose `name` is empty — the text between the first two quotes of
a player line may be the empty string — refuting the non-empty-name
invariant. -/
theorem decode_empty_name_counterexample :
    decodeStatus "statusResponse\n\\a\\b\n\"\" \"x\"\n" =
      some ⟨[("b", "b")], [Player.mk "" ""]⟩ ∧
    (Player.mk "" "").name.length = 0 :=
  ⟨by decide, by decide⟩

/-- C6 (amended): whenever `sanitize_string` returns an output, the output
is no longer than the input; consequently every player of a successfully
decoded `ServerStatus` has `clean_name` no longer than `name` (the name
itself may be empty). -/
theorem decoded_players_cleanname_le :
    (∀ s r, sanitize_string s = some r → r.length ≤ s.length) ∧
    (∀ resp st, decodeStatus resp = some st →
      ∀ p ∈ st.players, p.clean_name.length ≤ p.name.length) := by
  have part1 : ∀ s r, sanitize_string s = some r → r.length ≤ s.length := by
    intro s r h
    unfold sanitize_string at h
    obtain ⟨cs, hcs, rfl⟩ := Option.map_eq_some'.mp h
    have hlen := sanitizeLoop_length s.toList (byteLen s.toList) 0 cs hcs
    have e1 : (String.mk cs).length = cs.length := rfl
    have e2 : s.length = s.toList.length := rfl
    omega
  refine ⟨part1, ?_⟩
  intro resp st hdec p hp
  obtain ⟨names, hnames⟩ := decodeStatus_players resp st hdec
  obtain ⟨n, _, hfn⟩ := collectMap_mem _ names st.players hnames p hp
  obtain ⟨cn, hcn, hpmk⟩ := Option.map_eq_some'.mp hfn
  have hname : p.name = n := by rw [← hpmk]
  have hclean : p.clean_name = cn := by rw [← hpmk]
  rw [hname, hclean]
  exact part1 n cn hcn

/-- C6 (witness): the amended theorem applied to `"^1A"` (length 1 output
from length 3 input) and to a concrete decoded status with one player. -/
theorem decoded_players_cleanname_le_witness :
    sanitize_string "^1A" = some "A" ∧
    ("A" : String).length ≤ ("^1A" : String).length ∧
    decodeStatus "statusResponse\n\\a\\b\n\"0\" \"x\"\n" =
      some ⟨[("b", "b")], [Player.mk "0" "0"]⟩ ∧
    (Player.mk "0" "0").clean_name.length ≤ (Player.mk "0" "0").name.length :=
  ⟨by decide, decoded_players_cleanname_le.1 "^1A" "A" (by decide), by decide,
    decoded_players_cleanname_le.2 "statusResponse\n\\a\\b\n\"0\" \"x\"\n"
      ⟨[("b", "b")], [Player.mk "0" "0"]⟩ (by decide)
      (Player.mk "0" "0") (by decide)⟩

/-- C7: the three authoritative sanitizer examples hold on the code:
`^1Player^7Name ↦ PlayerName`, `^1Player^^7Name ↦ Player^Name`,
`^1Player^^^7Name ↦ Player^^Name`. -/
theorem sanitize_examples :
    sanitize_string "^1Player^7Name" = some "PlayerName" ∧
    sanitize_string "^1Player^^7Name" = some "Player^Name" ∧
    sanitize_string "^1Player^^^7Name" = some "Player^^Name" :=
  ⟨by decide, by decide, by decide⟩

/-- C8 (counterexample): `"éé^"` ends in a caret that is not the second of
a `^^` pair, yet `sanitize_string` does not consume it and return `"éé"` —
it panics (byte length 5 versus 3 characters), refuting the claim for
arbitrary inputs. -/
theorem sanitize_trailing_caret_counterexample :
    sanitize_string "éé^" = none ∧ sanitize_string "éé^" ≠ some "éé" :=
  ⟨by decide, by decide⟩

/-- C8 (amended): for every input of single-byte characters whose final
character is a caret not preceded by a caret, the trailing caret is
consumed with nothing emitted — `sanitize(t ++ "^") = sanitize(t)` — and
the sanitizer succeeds. -/
theorem sanitize_trailing_caret (t : List Char)
    (h1 : byteLen (t ++ ['^']) = t.length + 1) (h2 : t.getLast? ≠ some '^') :
    sanitize_string (String.mk (t ++ ['^'])) = sanitize_string (String.mk t) ∧
      (sanitize_string (String.mk t)).isSome = true := by
  have hbp : byteLen ['^'] = 1 := by decide
  have hba := byteLen_append t ['^']
  have hbt : byteLen t = t.length := by omega
  constructor
  · unfold sanitize_string
    rw [toList_mk, toList_mk, h1,
      sanitizeLoop_trailing t hbt h2 (t.length + 1) 0,
      sanitizeLoop_fuel t (t.length + 1) (byteLen t) 0 (by omega) (by omega)]
  · unfold sanitize_string
    rw [toList_mk, Option.isSome_map']
    exact sanitizeLoop_isSome t (by omega) (byteLen t) 0

/-- C8 (witness): the amended theorem applied at `t = "abc".toList`, so
`sanitize("abc^") = sanitize("abc")` and the sanitizer succeeds. -/
theorem sanitize_trailing_caret_witness :
    byteLen ("abc".toList ++ ['^']) = "abc".toList.length + 1 ∧
    "abc".toList.getLast? ≠ some '^' ∧
    (sanitize_string (String.mk ("abc".toList ++ ['^'])) =
        sanitize_string (String.mk "abc".toList) ∧
      (sanitize_string (String.mk "abc".toList)).isSome = true) :=
  ⟨by decide, by decide,
    sanitize_trailing_caret "abc".toList (by decide) (by decide)⟩

/-- C9: the request payload is exactly the 13 bytes `FF FF FF FF` followed
by the ASCII codes of `"getstatus"`, with no trailing null terminator and
no length prefix. -/
theorem request_payload_bytes :
    requestPayload =
      [0xff, 0xff, 0xff, 0xff,
        103, 101, 116, 115, 116, 97, 116, 117, 115] ∧
    requestPayload.length = 13 :=
  ⟨by decide, by decide⟩

/-- C10: a later `HashMap::insert` of the same key overwrites the earlier
binding, and on a key/value line carrying the key `k` twice the decoded
status maps `k` to the value of its LAST occurrence, with no error. -/
theorem duplicate_keys_last_wins :
    (∀ m k v, mapFind (mapInsert m k v) k = some v) ∧
    decodeStatus "statusResponse\n\\a\\b\\k\\v1\\k\\v2\n" =
      some ⟨[("b", "b"), ("k", "v2")], []⟩ ∧
    mapFind [("b", "b"), ("k", "v2")] "k" = some "v2" := by
  refine ⟨?_, by decide, by decide⟩
  intro m k v
  unfold mapFind mapInsert
  rw [List.find?_append]
  have hnone : (m.filter (fun p => p.1 != k)).find? (fun p => p.1 == k)
      = none := by
    rw [List.find?_eq_none]
    intro x hx
    have hne := (List.mem_filter.mp hx).2
    simp only [bne_iff_ne, ne_eq, decide_eq_true_eq] at hne
    simp only [beq_iff_eq]
    exact hne
  rw [hnone]
  simp [List.find?]

end Q3
